import Mathlib

/-!
# SahlTestingFramework: pass/fail counters and the two task-distribution experiments

Shallow embedding of `NewTests/main.cpp`.

* `TestState`, `testBoolean`, `checkTestStateIsEqual`, `getTotalFailedTests`
  are the functions of lines 60-80.
* The shared-queue experiment (lines 185-229) is a transition system: one
  `workerStep` is one atomic action of one worker thread, a schedule is the
  list of worker indices in the order in which their actions happen.
* The greedy experiment (lines 232-280) is the planner loop `planPartition`
  (lines 240-257) followed by a transition system for the worker threads
  that add their slot to `answer4` (lines 264-275).

`main` fixes the batch and the thread count as literals; they are the
parameters `tasks`/`tasks4` and `threads16` here.

`int` is 32 bits wide.  Arithmetic on it is written over `Int` and wrapped
with `wrapInt` after every operation: this is what `std::atomic<int>` is
defined to do, and what the usual targets do for a plain `int` (for which the
language leaves overflow undefined).
-/

namespace Sahl

/-! ## The `int` type -/

/-- Largest value of `int`. -/
def INT_MAX : Int := 2147483647

/-- Two's complement wrap-around of a mathematical integer into `int`. -/
def wrapInt (x : Int) : Int := (x + 2147483648) % 4294967296 - 2147483648

/-- Conversion `bool -> int` as in `state.passed += assertion`. -/
def boolToInt (b : Bool) : Int := if b then 1 else 0

/-! ## Pass/fail counters (lines 60-80) -/

/-- Counters of lines 60-63; a fresh value is `{0, 0}`. -/
structure TestState where
  total : Int := 0
  passed : Int := 0
deriving DecidableEq

/-- Lines 65-68; the reference parameter is returned as the new state. -/
def testBoolean (assertion : Bool) (state : TestState) : TestState :=
  { total := wrapInt (state.total + 1)
    passed := wrapInt (state.passed + boolToInt assertion) }

/-- Lines 74-76. -/
def checkTestStateIsEqual (testState : TestState) (expectedTestCount expectedPassedTests : Int) :
    Bool :=
  testState.total == expectedTestCount && testState.passed == expectedPassedTests

/-- Lines 78-80. -/
def getTotalFailedTests (state : TestState) : Int :=
  wrapInt (state.total - state.passed)

/-- The assertions of a sequence fed one by one to `testBoolean`, first one first. -/
def feedAssertions (assertions : List Bool) (state : TestState) : TestState :=
  assertions.foldl (fun st assertion => testBoolean assertion st) state

/-! ## What both experiments share -/

/-- Line 59. -/
def ITERATIONS_FOR_ONE_MS_FIB_N_I9_1200K : Int := 1136363

/-- The effect of `std::sort(first, last, std::greater<int>())`: the elements in descending
order. -/
def sortDescending (tasks : List Int) : List Int :=
  tasks.insertionSort (fun a b => b ≤ a)

/-- Ways in which a run stops before it has a result. -/
inductive Fault where
  /-- Thrown by `reserve(n)` when `n`, converted to `size_t`, exceeds `max_size()`:
  the case of a negative thread count. -/
  | length_error
  /-- Integer division by zero in `totalWorkload / threads16`. -/
  | divisionByZero
  /-- The quotient `totalWorkload / threads16` of `INT_MIN` by `-1`, which is no `int`. -/
  | divisionOverflow
  /-- A call of `tasks4.back()` on the empty vector. -/
  | backOnEmpty
deriving DecidableEq

/-- Observable actions of the worker threads. -/
inductive Event where
  /-- The guarded block found a unit at the front of the queue and removed it. -/
  | took (task : Int)
  /-- The guarded block found the queue empty; the worker leaves its loop. -/
  | sawEmpty
  /-- A call `fibonacci(n)`. -/
  | fibCall (n : Int)
  /-- An atomic `answer += task` (or `answer4 += task`). -/
  | added (task : Int)
deriving DecidableEq

/-- How many `fibonacci` calls a trace holds. -/
def fibCalls : List Event → Nat
  | [] => 0
  | .fibCall _ :: es => fibCalls es + 1
  | _ :: es => fibCalls es

/-! ## Shared-queue experiment (lines 185-229) -/

/-- Where a worker thread of lines 207-219 stands. -/
inductive WorkerPc where
  /-- At the top of `while (true)`, before the guarded block of lines 210-215. -/
  | atLock
  /-- The guarded block has handed out `task`; next is the `fibonacci` call (line 216). -/
  | holding (task : Int)
  /-- The `fibonacci` call has returned; next is `answer += task` (line 217). -/
  | computed (task : Int)
  /-- The `break` of line 212 was taken. -/
  | exited
deriving DecidableEq

/-- Shared variables and the position of every worker. The front of `taskQueue` is the head. -/
structure DynState where
  taskQueue : List Int
  answer : Int
  workers : List WorkerPc
deriving DecidableEq

/-- One atomic action of worker `i`, with the event it produces. A worker that has exited,
or an index that names no worker, does nothing. -/
def workerStep (s : DynState) (i : Nat) : DynState × List Event :=
  match s.workers.get? i with
  | none => (s, [])
  | some .exited => (s, [])
  | some .atLock =>
    match s.taskQueue with
    | [] => ({ s with workers := s.workers.set i .exited }, [.sawEmpty])
    | task :: rest =>
      ({ s with taskQueue := rest, workers := s.workers.set i (.holding task) }, [.took task])
  | some (.holding task) =>
    ({ s with workers := s.workers.set i (.computed task) },
      [.fibCall (wrapInt (ITERATIONS_FOR_ONE_MS_FIB_N_I9_1200K * task))])
  | some (.computed task) =>
    ({ s with answer := wrapInt (s.answer + task), workers := s.workers.set i .atLock },
      [.added task])

/-- The actions of a schedule, one after the other, with the trace they produce. -/
def runWorkers (s : DynState) : List Nat → DynState × List Event
  | [] => (s, [])
  | i :: sched =>
    let r := workerStep s i
    let r2 := runWorkers r.1 sched
    (r2.1, r.2 ++ r2.2)

/-- The state in which the threads of lines 206-220 start: the batch sorted and loaded
into the queue (lines 201-205), `answer = 0`, every worker at the top of its loop. -/
def dynamicInit (tasks : List Int) (threads : Nat) : DynState :=
  { taskQueue := sortDescending tasks, answer := 0,
    workers := List.replicate threads .atLock }

/-- Lines 194-220 up to the start of the threads. `threadVector3.reserve(threads16)` comes
first and throws for a negative count; `for (int i = 0; i < threads16; i++)` then starts
`threads16` workers. -/
def dynamicStart (tasks : List Int) (threads16 : Int) : Except Fault DynState :=
  if threads16 < 0 then .error .length_error
  else .ok (dynamicInit tasks threads16.toNat)

/-- The shared-queue experiment under a schedule of its workers. -/
def runDynamic (tasks : List Int) (threads16 : Int) (sched : List Nat) :
    Except Fault (DynState × List Event) :=
  match dynamicStart tasks threads16 with
  | .error e => .error e
  | .ok s => .ok (runWorkers s sched)

/-- Every worker has left its loop: the joins of lines 221-223 return. -/
def allExited (s : DynState) : Prop := ∀ pc ∈ s.workers, pc = WorkerPc.exited

instance (s : DynState) : Decidable (allExited s) := by
  unfold allExited; infer_instance

/-- The cost a worker has taken from the queue and not yet added to `answer`. -/
def heldCost : WorkerPc → Int
  | .holding task => task
  | .computed task => task
  | _ => 0

/-- Costs taken but not yet added, over all workers. -/
def inFlight (s : DynState) : Int := (s.workers.map heldCost).sum

/-- The batch of lines 190-193 and 236-239. -/
def benchmarkBatch : List Int :=
  [100, 50, 25, 0, 10, 0, 50, 25, 50, 50, 0, 25, 0, 5, 5, 5,
   100, 50, 25, 0, 10, 0, 50, 25, 50, 50, 0, 25, 0, 5, 5, 5,
   100, 50, 25, 0, 10, 0, 50, 25, 50, 50, 0, 25, 0, 5, 5, 5,
   100, 50, 25, 0, 10, 0, 50, 25, 50, 50, 0, 25, 0, 5, 5, 5]

/-- A schedule in which worker 0 drains a queue of `n` units alone and the other
`threads - 1` workers then each find it empty. -/
def drainSchedule (n threads : Nat) : List Nat :=
  List.replicate (3 * n + 1) 0 ++ (List.range threads).tail

/-! ## Greedy experiment (lines 232-280) -/

/-- Lines 240-243: the `int` sum of the batch, in batch order. -/
def totalWorkload (tasks4 : List Int) : Int :=
  tasks4.foldl (fun acc task => wrapInt (acc + task)) 0

/-- Line 244 where the quotient is defined: `totalWorkload / threads16`, rounded towards
zero. -/
def optimalThreadWorkload (tasks4 : List Int) (threads16 : Int) : Int :=
  Int.tdiv (totalWorkload tasks4) threads16

/-- The `while` loop of lines 251-255. The pool `tasks4` is held back first: its head is
`tasks4.back()`, `pop_back()` leaves its tail. Returns `threadTask` and the pool that is
left. -/
def fillSlot (optimalThreadWorkload : Int) :
    List Int → Int → List Int → Except Fault (List Int × List Int)
  | [], workload, threadTask =>
    if workload < optimalThreadWorkload then .error .backOnEmpty
    else .ok (threadTask, [])
  | back :: rest, workload, threadTask =>
    if workload < optimalThreadWorkload then
      fillSlot optimalThreadWorkload rest (wrapInt (workload + back)) (threadTask ++ [back])
    else .ok (threadTask, back :: rest)

/-- What the planner leaves: the slots in worker order and the pool, back first. -/
structure Plan where
  threadTasks : List (List Int)
  tasks4 : List Int
deriving DecidableEq

/-- The `for` loop of lines 248-257 with `n` iterations to go. -/
def fillSlots (optimalThreadWorkload : Int) :
    Nat → List Int → List (List Int) → Except Fault Plan
  | 0, tasks4, threadTasks => .ok { threadTasks := threadTasks, tasks4 := tasks4 }
  | n + 1, tasks4, threadTasks =>
    match fillSlot optimalThreadWorkload tasks4 0 [] with
    | .error e => .error e
    | .ok (threadTask, rest) =>
      fillSlots optimalThreadWorkload n rest (threadTasks ++ [threadTask])

/-- Lines 240-257: the sum, the division, `threadTasks.reserve(threads16)`, the sort and
the slot loop. -/
def planPartition (tasks4 : List Int) (threads16 : Int) : Except Fault Plan :=
  if threads16 = 0 then .error .divisionByZero
  else if totalWorkload tasks4 = -2147483648 ∧ threads16 = -1 then .error .divisionOverflow
  else if threads16 < 0 then .error .length_error
  else fillSlots (optimalThreadWorkload tasks4 threads16) threads16.toNat
    (sortDescending tasks4).reverse []

/-- A worker thread of lines 266-271: the part of `currentThreadTasks` it has not added
yet, current task first, and whether the `fibonacci` call for that task has returned. -/
structure StaticWorker where
  pending : List Int
  fibDone : Bool
deriving DecidableEq

/-- The shared total and the workers of lines 259-275. -/
structure StaticState where
  answer4 : Int
  workers : List StaticWorker
deriving DecidableEq

/-- One atomic action of worker `i` of the greedy experiment. -/
def staticStep (s : StaticState) (i : Nat) : StaticState × List Event :=
  match s.workers.get? i with
  | none => (s, [])
  | some w =>
    match w.pending with
    | [] => (s, [])
    | task :: rest =>
      if w.fibDone then
        ({ answer4 := wrapInt (s.answer4 + task),
           workers := s.workers.set i { pending := rest, fibDone := false } }, [.added task])
      else
        ({ s with workers := s.workers.set i { pending := task :: rest, fibDone := true } },
          [.fibCall (wrapInt (ITERATIONS_FOR_ONE_MS_FIB_N_I9_1200K * task))])

/-- The actions of a schedule of the greedy workers, with their trace. -/
def runStaticWorkers (s : StaticState) : List Nat → StaticState × List Event
  | [] => (s, [])
  | i :: sched =>
    let r := staticStep s i
    let r2 := runStaticWorkers r.1 sched
    (r2.1, r.2 ++ r2.2)

/-- Lines 259-272: `answer4 = 0` and one worker per slot holding a copy of it. -/
def staticInit (threadTasks : List (List Int)) : StaticState :=
  { answer4 := 0
    workers := threadTasks.map (fun threadTask => { pending := threadTask, fibDone := false }) }

/-- The greedy experiment under a schedule of its workers. -/
def runStatic (tasks4 : List Int) (threads16 : Int) (sched : List Nat) :
    Except Fault (StaticState × List Event) :=
  match planPartition tasks4 threads16 with
  | .error e => .error e
  | .ok plan => .ok (runStaticWorkers (staticInit plan.threadTasks) sched)

/-- Every worker has gone through its slot: the joins of lines 273-275 return. -/
def allJoined (s : StaticState) : Prop := ∀ w ∈ s.workers, w.pending = []

instance (s : StaticState) : Decidable (allJoined s) := by
  unfold allJoined; infer_instance

/-- Costs the greedy workers still have to add. -/
def pendingCost (s : StaticState) : Int :=
  (s.workers.map (fun w => w.pending.sum)).sum

/-- A schedule in which the workers run one after the other, worker `first` first, each
for the two actions per unit of its slot. -/
def sequentialSchedule : Nat → List (List Int) → List Nat
  | _, [] => []
  | first, threadTask :: others =>
    List.replicate (2 * threadTask.length) first ++ sequentialSchedule (first + 1) others

/-- Largest unit of a batch of non-negative units, 0 for the empty batch. -/
def maxUnit (tasks : List Int) : Int := tasks.foldr max 0

/-! ## Predicates used in the proofs -/

/-- An upper bound on the actions worker `i` still performs if it alone is scheduled. -/
def stepsLeft (s : DynState) (i : Nat) : Nat :=
  match s.workers.get? i with
  | some .atLock => 3 * s.taskQueue.length + 1
  | some (.holding _) => 3 * s.taskQueue.length + 3
  | some (.computed _) => 3 * s.taskQueue.length + 2
  | _ => 0

/-- A schedule in which workers `0, ..., threads - 1` act one after the other, `steps` times
each: the joins of lines 221-223 waiting for one thread after the other. -/
def joinSchedule (steps : Nat) : Nat → List Nat
  | 0 => []
  | threads + 1 => joinSchedule steps threads ++ List.replicate steps threads

/-- An upper bound on the actions greedy worker `i` still performs. -/
def staticLeft (s : StaticState) (i : Nat) : Nat :=
  match s.workers.get? i with
  | some w => if w.fibDone then 2 * w.pending.length - 1 else 2 * w.pending.length
  | none => 0

/-- Worker `j` has gone through its slot. -/
def workerJoined (s : StaticState) (j : Nat) : Prop :=
  ∃ w, s.workers[j]? = some w ∧ w.pending = []

/-- Conservation invariant of the shared-queue experiment for a batch of total cost `S`. -/
structure DynInv (S : Int) (s : DynState) : Prop where
  queue_nonneg : ∀ t ∈ s.taskQueue, 0 ≤ t
  held_nonneg : ∀ pc ∈ s.workers, 0 ≤ heldCost pc
  answer_nonneg : 0 ≤ s.answer
  conserved : s.answer + inFlight s + s.taskQueue.sum = S
  drained : (∃ pc ∈ s.workers, pc = WorkerPc.exited) → s.taskQueue = []

/-- State of a run whose queue was empty from the start. -/
structure EmptyInv (s : DynState) : Prop where
  queue_empty : s.taskQueue = []
  answer_zero : s.answer = 0
  no_unit_held : ∀ pc ∈ s.workers, pc = WorkerPc.atLock ∨ pc = WorkerPc.exited

/-- A slot filled by the `while` loop for a given target. -/
structure SlotFilled (target : Int) (slot : List Int) : Prop where
  reached : target ≤ slot.sum
  minimal : ∀ pre last, slot = pre ++ [last] → pre.sum < target
  empty_iff : slot = [] ↔ target ≤ 0

/-- Conservation invariant of the greedy workers for slots of total cost `S`. -/
structure StaticInv (S : Int) (s : StaticState) : Prop where
  pending_nonneg : ∀ w ∈ s.workers, ∀ t ∈ w.pending, 0 ≤ t
  answer_nonneg : 0 ≤ s.answer4
  conserved : s.answer4 + pendingCost s = S

/-- The batch in ascending order. -/
def sortAscending (tasks : List Int) : List Int :=
  tasks.insertionSort (fun a b => a ≤ b)

/-- The partition the planner computes for the batch of lines 236-239 and 16 threads. -/
def benchmarkPlan : Plan :=
  { threadTasks :=
      [[0, 0, 0, 0, 0, 0, 0, 0, 0, 0, 0, 0, 0, 0, 0, 0, 5, 5, 5, 5, 5, 5, 5, 5, 5, 5, 5, 5,
        10, 10, 10, 10],
       [25, 25, 25, 25], [25, 25, 25, 25], [25, 25, 25, 25],
       [50, 50], [50, 50], [50, 50], [50, 50], [50, 50], [50, 50], [50, 50], [50, 50],
       [100], [100], [100], [100]]
    tasks4 := [] }


/-! ## Facts about `int` arithmetic -/

theorem wrapInt_eq_self {x : Int} (hlo : -2147483648 ≤ x) (hhi : x ≤ 2147483647) :
    wrapInt x = x := by
  unfold wrapInt
  omega

/-! ## Pass/fail counters -/

theorem feedAssertions_cons (b : Bool) (bs : List Bool) (state : TestState) :
    feedAssertions (b :: bs) state = feedAssertions bs (testBoolean b state) := rfl

theorem feedAssertions_append (as bs : List Bool) (state : TestState) :
    feedAssertions (as ++ bs) state = feedAssertions bs (feedAssertions as state) := by
  simp [feedAssertions, List.foldl_append]

/-- Counting from any state whose counters are in range and leave room for the sequence. -/
theorem feedAssertions_counts (assertions : List Bool) :
    ∀ state : TestState, 0 ≤ state.passed → state.passed ≤ state.total →
      state.total + assertions.length ≤ 2147483647 →
      (feedAssertions assertions state).total = state.total + assertions.length ∧
      (feedAssertions assertions state).passed = state.passed + assertions.count true := by
  induction assertions with
  | nil => intro state _ _ _; simp [feedAssertions]
  | cons b bs ih =>
    intro state h0 h1 h2
    rw [feedAssertions_cons]
    have hlen : ((b :: bs).length : Int) = (bs.length : Int) + 1 := by simp
    have hb : boolToInt b = 0 ∨ boolToInt b = 1 := by cases b <;> simp [boolToInt]
    have ht : (testBoolean b state).total = state.total + 1 := by
      show wrapInt (state.total + 1) = _
      exact wrapInt_eq_self (by omega) (by omega)
    have hp : (testBoolean b state).passed = state.passed + boolToInt b := by
      show wrapInt (state.passed + boolToInt b) = _
      exact wrapInt_eq_self (by omega) (by omega)
    obtain ⟨iht, ihp⟩ := ih (testBoolean b state) (by omega) (by omega) (by omega)
    refine ⟨by rw [iht, ht]; omega, ?_⟩
    rw [ihp, hp]
    cases b
    · simp [boolToInt, List.count_cons]
    · simp [boolToInt, List.count_cons]; omega

/-- Claim C9, amended. For every sequence of at most 2147483647 booleans fed one by one to
`testBoolean` from a fresh `TestState`: `total` is the length of the sequence, `passed` the
number of `true` values, `getTotalFailedTests` the number of `false` values, and
`0 <= passed <= total`. -/
theorem pass_fail_counting (assertions : List Bool) (hlen : assertions.length ≤ 2147483647) :
    (feedAssertions assertions {}).total = assertions.length ∧
    (feedAssertions assertions {}).passed = assertions.count true ∧
    getTotalFailedTests (feedAssertions assertions {}) = assertions.count false ∧
    0 ≤ (feedAssertions assertions {}).passed ∧
    (feedAssertions assertions {}).passed ≤ (feedAssertions assertions {}).total := by
  obtain ⟨ht, hp⟩ := feedAssertions_counts assertions {} (by simp) (by simp)
    (by show (0 : Int) + _ ≤ _; omega)
  have hsum := List.count_true_add_count_false assertions
  have ht2 : (feedAssertions assertions {}).total = assertions.length := by
    rw [ht]; show (0 : Int) + _ = _; omega
  have hp2 : (feedAssertions assertions {}).passed = assertions.count true := by
    rw [hp]; show (0 : Int) + _ = _; omega
  refine ⟨ht2, hp2, ?_, by omega, by omega⟩
  unfold getTotalFailedTests
  rw [ht2, hp2, wrapInt_eq_self (by omega) (by omega)]
  omega

/-- Witness for claim C9. The assertions of lines 109-112 give total 4, passed 3, failed 1; with
those of lines 119 and 124 the counters are 6, 5, 1. -/
theorem pass_fail_counting_witness :
    [true, true, true, false, true, true].length ≤ 2147483647 ∧
    checkTestStateIsEqual (feedAssertions [true, true, true, false] {}) 4 3 = true ∧
    getTotalFailedTests (feedAssertions [true, true, true, false] {}) = 1 ∧
    ((feedAssertions [true, true, true, false, true, true] {}).total = 6 ∧
     (feedAssertions [true, true, true, false, true, true] {}).passed = 5 ∧
     getTotalFailedTests (feedAssertions [true, true, true, false, true, true] {}) = 1 ∧
     0 ≤ (feedAssertions [true, true, true, false, true, true] {}).passed ∧
     (feedAssertions [true, true, true, false, true, true] {}).passed ≤
       (feedAssertions [true, true, true, false, true, true] {}).total) :=
  ⟨by decide, by decide, by decide,
    pass_fail_counting [true, true, true, false, true, true] (by decide)⟩

/-- Counterexample to claim C9 as stated. After 2147483648 passing assertions `total` is not the
length of the sequence: the `int` counter has wrapped to -2147483648. -/
theorem pass_fail_counting_overflow :
    (feedAssertions (List.replicate 2147483648 true) {}).total = -2147483648 ∧
    (feedAssertions (List.replicate 2147483648 true) {}).total ≠
      ((List.replicate 2147483648 true).length : Int) := by
  have hsplit : List.replicate 2147483648 true = List.replicate 2147483647 true ++ [true] := by
    rw [show (2147483648 : Nat) = 2147483647 + 1 from rfl, List.replicate_succ']
  have hlen : (List.replicate 2147483647 true).length = 2147483647 := List.length_replicate _ _
  obtain ⟨ht, -⟩ := feedAssertions_counts (List.replicate 2147483647 true) {}
    (by simp) (by simp) (by rw [hlen]; decide)
  have htot : (feedAssertions (List.replicate 2147483648 true) {}).total = -2147483648 := by
    rw [hsplit, feedAssertions_append]
    show wrapInt ((feedAssertions (List.replicate 2147483647 true) {}).total + 1) = _
    rw [ht, hlen]
    decide
  refine ⟨htot, ?_⟩
  rw [htot, List.length_replicate]
  decide



/-! ## Lists of workers -/

theorem sum_map_set {α : Type} (f : α → Int) :
    ∀ (l : List α) (i : Nat) (old new : α), l[i]? = some old →
      ((l.set i new).map f).sum = (l.map f).sum - f old + f new := by
  intro l
  induction l with
  | nil => intro i old new h; simp at h
  | cons a l ih =>
    intro i old new h
    cases i with
    | zero =>
      simp at h
      subst h
      simp only [List.set_cons_zero, List.map_cons, List.sum_cons]
      omega
    | succ i =>
      simp at h
      simp only [List.set_cons_succ, List.map_cons, List.sum_cons, ih i old new h]
      omega

theorem sum_nonneg_of_forall {l : List Int} (h : ∀ x ∈ l, 0 ≤ x) : 0 ≤ l.sum := by
  induction l with
  | nil => simp
  | cons a l ih =>
    simp only [List.sum_cons]
    have h1 := h a (by simp)
    have h2 := ih (fun x hx => h x (by simp [hx]))
    omega

theorem sum_sortDescending (tasks : List Int) : (sortDescending tasks).sum = tasks.sum :=
  (List.perm_insertionSort _ tasks).sum_eq

theorem mem_sortDescending {tasks : List Int} {t : Int} :
    t ∈ sortDescending tasks ↔ t ∈ tasks :=
  (List.perm_insertionSort _ tasks).mem_iff

theorem sorted_sortDescending (tasks : List Int) :
    (sortDescending tasks).Sorted (fun a b => b ≤ a) := by
  haveI : IsTotal Int (fun a b => b ≤ a) := ⟨fun a b => le_total b a⟩
  haveI : IsTrans Int (fun a b => b ≤ a) := ⟨fun a b c hab hbc => le_trans hbc hab⟩
  exact List.sorted_insertionSort _ tasks

/-! ## Shared-queue experiment: what every reachable state satisfies -/

theorem inFlight_nonneg {S : Int} {s : DynState} (h : DynInv S s) : 0 ≤ inFlight s := by
  apply sum_nonneg_of_forall
  intro x hx
  obtain ⟨pc, hpc, rfl⟩ := List.mem_map.1 hx
  exact h.held_nonneg pc hpc

theorem workerStep_workers_length (s : DynState) (i : Nat) :
    (workerStep s i).1.workers.length = s.workers.length := by
  unfold workerStep
  simp only [List.get?_eq_getElem?]
  split
  · rfl
  · rfl
  · split <;> simp
  · simp
  · simp

theorem runWorkers_workers_length (sched : List Nat) :
    ∀ s : DynState, (runWorkers s sched).1.workers.length = s.workers.length := by
  induction sched with
  | nil => intro s; rfl
  | cons i sched ih =>
    intro s
    show (runWorkers (workerStep s i).1 sched).1.workers.length = _
    rw [ih, workerStep_workers_length]

theorem workerStep_inv {S : Int} (hS : S ≤ 2147483647) (s : DynState) (i : Nat)
    (h : DynInv S s) : DynInv S (workerStep s i).1 := by
  have hq := sum_nonneg_of_forall h.queue_nonneg
  have hf := inFlight_nonneg h
  have hc := h.conserved
  have ha := h.answer_nonneg
  unfold workerStep
  simp only [List.get?_eq_getElem?]
  split
  · exact h
  · exact h
  · next hget =>
    split
    · next hqe =>
      refine ⟨by simp [hqe], ?_, ha, ?_, fun _ => hqe⟩
      · intro pc hpc
        rcases List.mem_or_eq_of_mem_set hpc with hmem | rfl
        · exact h.held_nonneg pc hmem
        · simp [heldCost]
      · show s.answer + ((s.workers.set i WorkerPc.exited).map heldCost).sum + _ = S
        rw [sum_map_set heldCost _ _ _ _ hget]
        simp only [heldCost]
        unfold inFlight at hc
        omega
    · next task rest hqe =>
      have htask : 0 ≤ task := h.queue_nonneg task (by simp [hqe])
      refine ⟨?_, ?_, ha, ?_, ?_⟩
      · intro t ht
        exact h.queue_nonneg t (by simp [hqe, ht])
      · intro pc hpc
        rcases List.mem_or_eq_of_mem_set hpc with hmem | rfl
        · exact h.held_nonneg pc hmem
        · simpa [heldCost] using htask
      · show s.answer + ((s.workers.set i (WorkerPc.holding task)).map heldCost).sum + rest.sum = S
        rw [sum_map_set heldCost _ _ _ _ hget]
        simp only [heldCost]
        unfold inFlight at hc
        rw [hqe, List.sum_cons] at hc
        omega
      · rintro ⟨pc, hpc, rfl⟩
        exfalso
        rcases List.mem_or_eq_of_mem_set hpc with hmem | heq
        · have := h.drained ⟨_, hmem, rfl⟩
          simp [hqe] at this
        · cases heq
  · next task hget =>
    have hmem : WorkerPc.holding task ∈ s.workers := List.getElem?_mem hget
    refine ⟨h.queue_nonneg, ?_, ha, ?_, ?_⟩
    · intro pc hpc
      rcases List.mem_or_eq_of_mem_set hpc with hmem2 | rfl
      · exact h.held_nonneg pc hmem2
      · exact (h.held_nonneg (WorkerPc.holding task) hmem : 0 ≤ task)
    · show s.answer + ((s.workers.set i (WorkerPc.computed task)).map heldCost).sum + _ = S
      rw [sum_map_set heldCost _ _ _ _ hget]
      simp only [heldCost]
      unfold inFlight at hc
      omega
    · rintro ⟨pc, hpc, rfl⟩
      rcases List.mem_or_eq_of_mem_set hpc with hmem2 | heq
      · exact h.drained ⟨_, hmem2, rfl⟩
      · cases heq
  · next task hget =>
    have hmem : WorkerPc.computed task ∈ s.workers := List.getElem?_mem hget
    have htask : 0 ≤ task := h.held_nonneg _ hmem
    have hle : task ≤ inFlight s := by
      have := sum_map_set heldCost _ _ _ WorkerPc.atLock hget
      have h2 : 0 ≤ ((s.workers.set i WorkerPc.atLock).map heldCost).sum := by
        apply sum_nonneg_of_forall
        intro x hx
        obtain ⟨pc, hpc, rfl⟩ := List.mem_map.1 hx
        rcases List.mem_or_eq_of_mem_set hpc with hmem2 | rfl
        · exact h.held_nonneg pc hmem2
        · simp [heldCost]
      simp only [heldCost] at this
      unfold inFlight
      omega
    have hw : wrapInt (s.answer + task) = s.answer + task :=
      wrapInt_eq_self (by omega) (by omega)
    refine ⟨h.queue_nonneg, ?_, ?_, ?_, ?_⟩
    · intro pc hpc
      rcases List.mem_or_eq_of_mem_set hpc with hmem2 | rfl
      · exact h.held_nonneg pc hmem2
      · simp [heldCost]
    · show 0 ≤ wrapInt (s.answer + task)
      rw [hw]; omega
    · show wrapInt (s.answer + task) + ((s.workers.set i WorkerPc.atLock).map heldCost).sum + _ = S
      rw [hw, sum_map_set heldCost _ _ _ _ hget]
      simp only [heldCost]
      unfold inFlight at hc
      omega
    · rintro ⟨pc, hpc, rfl⟩
      rcases List.mem_or_eq_of_mem_set hpc with hmem2 | heq
      · exact h.drained ⟨_, hmem2, rfl⟩
      · cases heq

theorem runWorkers_inv {S : Int} (hS : S ≤ 2147483647) (sched : List Nat) :
    ∀ s : DynState, DynInv S s → DynInv S (runWorkers s sched).1 := by
  induction sched with
  | nil => intro s h; exact h
  | cons i sched ih =>
    intro s h
    exact ih _ (workerStep_inv hS s i h)

theorem dynamicInit_inv (tasks : List Int) (threads : Nat) (hnonneg : ∀ t ∈ tasks, 0 ≤ t) :
    DynInv tasks.sum (dynamicInit tasks threads) := by
  refine ⟨?_, ?_, le_refl _, ?_, ?_⟩
  · intro t ht
    exact hnonneg t (mem_sortDescending.1 ht)
  · intro pc hpc
    have := List.eq_of_mem_replicate hpc
    subst this
    simp [heldCost]
  · show (0 : Int) + ((List.replicate threads WorkerPc.atLock).map heldCost).sum +
      (sortDescending tasks).sum = tasks.sum
    rw [sum_sortDescending]
    simp [heldCost]
  · rintro ⟨pc, hpc, rfl⟩
    have := List.eq_of_mem_replicate hpc
    cases this

theorem inFlight_of_allExited {s : DynState} (h : allExited s) : inFlight s = 0 := by
  unfold inFlight
  apply List.sum_eq_zero
  intro x hx
  obtain ⟨pc, hpc, rfl⟩ := List.mem_map.1 hx
  rw [h pc hpc]
  rfl



/-! ## Shared-queue experiment: the order of the takes -/

theorem workerStep_empty (s : DynState) (i : Nat) (h : EmptyInv s) :
    EmptyInv (workerStep s i).1 ∧ (∀ e ∈ (workerStep s i).2, e = Event.sawEmpty) ∧
    (∀ j : Nat, s.workers[j]? = some WorkerPc.exited →
      (workerStep s i).1.workers[j]? = some WorkerPc.exited) ∧
    (i < s.workers.length → (workerStep s i).1.workers[i]? = some WorkerPc.exited) := by
  have hq := h.queue_empty
  unfold workerStep
  simp only [List.get?_eq_getElem?]
  split
  · next hget =>
    refine ⟨h, by simp, fun j hj => hj, fun hi => ?_⟩
    rw [List.getElem?_eq_none_iff] at hget
    omega
  · next hget => exact ⟨h, by simp, fun j hj => hj, fun _ => hget⟩
  · next hget =>
    split
    · refine ⟨⟨hq, h.answer_zero, ?_⟩, by simp, ?_, ?_⟩
      · intro pc hpc
        rcases List.mem_or_eq_of_mem_set hpc with hmem | rfl
        · exact h.no_unit_held pc hmem
        · exact Or.inr rfl
      · intro j hj
        show (s.workers.set i WorkerPc.exited)[j]? = _
        rw [List.getElem?_set]
        split
        · split
          · rfl
          · next hij hlt => subst hij; rw [List.getElem?_eq_none_iff.2 (by omega)] at hj; cases hj
        · exact hj
      · intro hi
        show (s.workers.set i WorkerPc.exited)[i]? = _
        rw [List.getElem?_set]
        simp [hi]
    · next task rest hq2 => rw [hq] at hq2; cases hq2
  · next task hget =>
    rcases h.no_unit_held _ (List.getElem?_mem hget) with h1 | h1 <;> cases h1
  · next task hget =>
    rcases h.no_unit_held _ (List.getElem?_mem hget) with h1 | h1 <;> cases h1

theorem runWorkers_empty (sched : List Nat) :
    ∀ s : DynState, EmptyInv s →
      EmptyInv (runWorkers s sched).1 ∧ (∀ e ∈ (runWorkers s sched).2, e = Event.sawEmpty) ∧
      (∀ j : Nat, s.workers[j]? = some WorkerPc.exited →
        (runWorkers s sched).1.workers[j]? = some WorkerPc.exited) ∧
      (∀ j ∈ sched, j < s.workers.length →
        (runWorkers s sched).1.workers[j]? = some WorkerPc.exited) := by
  induction sched with
  | nil => intro s h; exact ⟨h, by simp [runWorkers], fun j hj => hj, by simp⟩
  | cons i sched ih =>
    intro s h
    obtain ⟨h1, h2, h3, h4⟩ := workerStep_empty s i h
    obtain ⟨k1, k2, k3, k4⟩ := ih (workerStep s i).1 h1
    refine ⟨k1, ?_, fun j hj => k3 j (h3 j hj), ?_⟩
    · intro e he
      have he2 : e ∈ (workerStep s i).2 ++ (runWorkers (workerStep s i).1 sched).2 := he
      rcases List.mem_append.1 he2 with he3 | he3
      · exact h2 e he3
      · exact k2 e he3
    · intro j hj hlt
      rcases List.mem_cons.1 hj with rfl | hj2
      · exact k3 j (h4 hlt)
      · exact k4 j hj2 (by rw [workerStep_workers_length]; exact hlt)

theorem fibCalls_of_sawEmpty {es : List Event} (h : ∀ e ∈ es, e = Event.sawEmpty) :
    fibCalls es = 0 := by
  induction es with
  | nil => rfl
  | cons e es ih =>
    have he := h e (by simp)
    subst he
    exact ih (fun e he => h e (by simp [he]))



/-! ## The planner: where the units go -/

theorem fillSlot_split (target : Int) :
    ∀ (pool : List Int) (workload : Int) (threadTask slot rest : List Int),
      fillSlot target pool workload threadTask = .ok (slot, rest) →
      ∃ taken, slot = threadTask ++ taken ∧ pool = taken ++ rest := by
  intro pool
  induction pool with
  | nil =>
    intro workload threadTask slot rest h
    unfold fillSlot at h
    split at h
    · cases h
    · cases h; exact ⟨[], by simp, by simp⟩
  | cons back pool ih =>
    intro workload threadTask slot rest h
    unfold fillSlot at h
    split at h
    · obtain ⟨taken, h1, h2⟩ := ih _ _ _ _ h
      exact ⟨back :: taken, by simp [h1], by simp [h2]⟩
    · cases h; exact ⟨[], by simp, by simp⟩

theorem fillSlots_split (target : Int) :
    ∀ (n : Nat) (pool : List Int) (threadTasks : List (List Int)) (plan : Plan),
      fillSlots target n pool threadTasks = .ok plan →
      ∃ slots, plan.threadTasks = threadTasks ++ slots ∧ slots.length = n ∧
        pool = slots.flatten ++ plan.tasks4 := by
  intro n
  induction n with
  | zero =>
    intro pool threadTasks plan h
    unfold fillSlots at h
    cases h
    exact ⟨[], by simp, rfl, by simp⟩
  | succ n ih =>
    intro pool threadTasks plan h
    unfold fillSlots at h
    split at h
    · cases h
    · next slot rest hslot =>
      obtain ⟨taken, h1, h2⟩ := fillSlot_split target _ _ _ _ _ hslot
      obtain ⟨slots, k1, k2, k3⟩ := ih _ _ _ h
      refine ⟨slot :: slots, by simp [k1], by simp [k2], ?_⟩
      simp at h1
      rw [h2, k3, h1]
      simp

theorem planPartition_ok {tasks4 : List Int} {threads16 : Int} {plan : Plan}
    (h : planPartition tasks4 threads16 = .ok plan) :
    1 ≤ threads16 ∧
    fillSlots (optimalThreadWorkload tasks4 threads16) threads16.toNat
      (sortDescending tasks4).reverse [] = .ok plan := by
  unfold planPartition at h
  split at h
  · cases h
  · split at h
    · cases h
    · split at h
      · cases h
      · exact ⟨by omega, h⟩

theorem planPartition_split {tasks4 : List Int} {threads16 : Int} {plan : Plan}
    (h : planPartition tasks4 threads16 = .ok plan) :
    (plan.threadTasks.length : Int) = threads16 ∧
    plan.threadTasks.flatten ++ plan.tasks4 = (sortDescending tasks4).reverse := by
  obtain ⟨hW, hfill⟩ := planPartition_ok h
  obtain ⟨slots, h1, h2, h3⟩ := fillSlots_split _ _ _ _ _ hfill
  simp at h1
  rw [h1]
  refine ⟨by rw [h2]; omega, h3.symm⟩

theorem planPartition_perm {tasks4 : List Int} {threads16 : Int} {plan : Plan}
    (h : planPartition tasks4 threads16 = .ok plan) :
    (plan.threadTasks.flatten ++ plan.tasks4).Perm tasks4 := by
  rw [(planPartition_split h).2]
  exact (List.reverse_perm _).trans (List.perm_insertionSort _ tasks4)

/-! ## The planner: how far a slot is filled -/

theorem totalWorkload_eq_sum (tasks4 : List Int) (hnonneg : ∀ t ∈ tasks4, 0 ≤ t)
    (hfits : tasks4.sum ≤ 2147483647) : totalWorkload tasks4 = tasks4.sum := by
  have key : ∀ (l : List Int) (acc : Int), (∀ t ∈ l, 0 ≤ t) → 0 ≤ acc →
      acc + l.sum ≤ 2147483647 →
      l.foldl (fun acc task => wrapInt (acc + task)) acc = acc + l.sum := by
    intro l
    induction l with
    | nil => intro acc _ _ _; simp
    | cons a l ih =>
      intro acc hl hacc hsum
      have ha : 0 ≤ a := hl a (by simp)
      have hl2 : ∀ t ∈ l, 0 ≤ t := fun t ht => hl t (by simp [ht])
      have hls := sum_nonneg_of_forall hl2
      simp only [List.sum_cons] at hsum
      simp only [List.foldl_cons, List.sum_cons]
      rw [wrapInt_eq_self (by omega) (by omega), ih (acc + a) hl2 (by omega) (by omega)]
      omega
  have := key tasks4 0 hnonneg (le_refl _) (by omega)
  unfold totalWorkload
  rw [this]
  omega

theorem optimalThreadWorkload_eq (tasks4 : List Int) (threads16 : Int)
    (hnonneg : ∀ t ∈ tasks4, 0 ≤ t) (hfits : tasks4.sum ≤ 2147483647)
    (hW : 1 ≤ threads16) :
    optimalThreadWorkload tasks4 threads16 = tasks4.sum / threads16 := by
  unfold optimalThreadWorkload
  rw [totalWorkload_eq_sum tasks4 hnonneg hfits]
  exact Int.tdiv_eq_ediv (sum_nonneg_of_forall hnonneg) (by omega)

theorem fillSlot_filled (target : Int) :
    ∀ (pool : List Int) (workload : Int) (threadTask slot rest : List Int),
      (∀ t ∈ pool, 0 ≤ t) → workload = threadTask.sum → 0 ≤ workload →
      workload + pool.sum ≤ 2147483647 →
      fillSlot target pool workload threadTask = .ok (slot, rest) →
      target ≤ slot.sum ∧
      ((slot = threadTask ∧ target ≤ workload) ∨
        (workload < target ∧ ∃ pre last, slot = pre ++ [last] ∧ pre.sum < target)) := by
  intro pool
  induction pool with
  | nil =>
    intro workload threadTask slot rest _ hw _ _ h
    unfold fillSlot at h
    split at h
    · cases h
    · cases h; exact ⟨by omega, Or.inl ⟨rfl, by omega⟩⟩
  | cons back pool ih =>
    intro workload threadTask slot rest hpool hw h0 hsum h
    have hback : 0 ≤ back := hpool back (by simp)
    have hpool2 : ∀ t ∈ pool, 0 ≤ t := fun t ht => hpool t (by simp [ht])
    have hps := sum_nonneg_of_forall hpool2
    simp only [List.sum_cons] at hsum
    unfold fillSlot at h
    split at h
    · next hlt =>
      rw [wrapInt_eq_self (by omega) (by omega)] at h
      obtain ⟨h1, h2⟩ := ih _ _ _ _ hpool2 (by simp [hw]) (by omega) (by omega) h
      refine ⟨h1, Or.inr ⟨hlt, ?_⟩⟩
      rcases h2 with ⟨h3, _⟩ | ⟨_, h3⟩
      · exact ⟨threadTask, back, h3, by omega⟩
      · exact h3
    · cases h; exact ⟨by omega, Or.inl ⟨rfl, by omega⟩⟩

theorem fillSlot_slotFilled (target : Int) (pool slot rest : List Int)
    (hpool : ∀ t ∈ pool, 0 ≤ t) (hsum : pool.sum ≤ 2147483647)
    (h : fillSlot target pool 0 [] = .ok (slot, rest)) : SlotFilled target slot := by
  obtain ⟨h1, h2⟩ := fillSlot_filled target pool 0 [] slot rest hpool (by simp) (le_refl _)
    (by omega) h
  rcases h2 with ⟨h3, h4⟩ | ⟨h3, pre, last, h4, h5⟩
  · refine ⟨h1, ?_, by simp [h3, h4]⟩
    intro pre last hpre
    rw [h3] at hpre
    simp at hpre
  · refine ⟨h1, ?_, ?_⟩
    · intro pre2 last2 hpre
      rw [h4] at hpre
      obtain ⟨hp, -⟩ := List.append_inj' hpre rfl
      rw [← hp]; exact h5
    · constructor
      · intro hs; rw [hs] at h4; simp at h4
      · intro ht; omega

theorem fillSlots_slotFilled (target : Int) :
    ∀ (n : Nat) (pool : List Int) (threadTasks : List (List Int)) (plan : Plan),
      (∀ t ∈ pool, 0 ≤ t) → pool.sum ≤ 2147483647 →
      fillSlots target n pool threadTasks = .ok plan →
      ∀ slot ∈ plan.threadTasks, slot ∈ threadTasks ∨ SlotFilled target slot := by
  intro n
  induction n with
  | zero =>
    intro pool threadTasks plan _ _ h slot hslot
    unfold fillSlots at h
    cases h
    exact Or.inl hslot
  | succ n ih =>
    intro pool threadTasks plan hpool hsum h slot hslot
    unfold fillSlots at h
    split at h
    · cases h
    · next first rest hfirst =>
      obtain ⟨taken, h1, h2⟩ := fillSlot_split target _ _ _ _ _ hfirst
      have hrest : ∀ t ∈ rest, 0 ≤ t := fun t ht => hpool t (by simp [h2, ht])
      have htaken : ∀ t ∈ taken, 0 ≤ t := fun t ht => hpool t (by simp [h2, ht])
      have hts := sum_nonneg_of_forall htaken
      have hrs : rest.sum ≤ 2147483647 := by
        rw [h2, List.sum_append] at hsum; omega
      rcases ih rest _ plan hrest hrs h slot hslot with hmem | hfilled
      · rcases List.mem_append.1 hmem with hm | hm
        · exact Or.inl hm
        · simp at hm
          subst hm
          exact Or.inr (fillSlot_slotFilled target pool _ rest hpool hsum hfirst)
      · exact Or.inr hfilled

theorem le_maxUnit {tasks : List Int} {t : Int} (h : t ∈ tasks) : t ≤ maxUnit tasks := by
  induction tasks with
  | nil => simp at h
  | cons a l ih =>
    show t ≤ max a (maxUnit l)
    rcases List.mem_cons.1 h with rfl | h2
    · exact le_max_left _ _
    · exact le_trans (ih h2) (le_max_right _ _)

theorem maxUnit_nonneg (tasks : List Int) : 0 ≤ maxUnit tasks := by
  induction tasks with
  | nil => exact le_refl _
  | cons a l ih => exact le_trans ih (le_max_right _ _)



/-! ## Greedy experiment: the workers -/

theorem pendingCost_nonneg {workers : List StaticWorker}
    (h : ∀ w ∈ workers, ∀ t ∈ w.pending, 0 ≤ t) :
    0 ≤ (workers.map (fun w => w.pending.sum)).sum := by
  apply sum_nonneg_of_forall
  intro x hx
  obtain ⟨w, hw, rfl⟩ := List.mem_map.1 hx
  exact sum_nonneg_of_forall (h w hw)

theorem staticStep_inv {S : Int} (hS : S ≤ 2147483647) (s : StaticState) (i : Nat)
    (h : StaticInv S s) : StaticInv S (staticStep s i).1 := by
  have hc := h.conserved
  have ha := h.answer_nonneg
  unfold staticStep
  simp only [List.get?_eq_getElem?]
  split
  · exact h
  · next w hget =>
    have hw := h.pending_nonneg w (List.getElem?_mem hget)
    split
    · exact h
    · next task rest hpend =>
      have htask : 0 ≤ task := hw task (by simp [hpend])
      have hrest : ∀ t ∈ rest, 0 ≤ t := fun t ht => hw t (by simp [hpend, ht])
      split
      · have hnew : ∀ v ∈ s.workers.set i { pending := rest, fibDone := false },
            ∀ t ∈ v.pending, 0 ≤ t := by
          intro v hv
          rcases List.mem_or_eq_of_mem_set hv with hmem | rfl
          · exact h.pending_nonneg v hmem
          · exact hrest
        have hsum := sum_map_set (fun w : StaticWorker => w.pending.sum) _ _ _
          { pending := rest, fibDone := false } hget
        have hpos := pendingCost_nonneg hnew
        simp only [hpend, List.sum_cons] at hsum
        unfold pendingCost at hc
        have hwrap : wrapInt (s.answer4 + task) = s.answer4 + task :=
          wrapInt_eq_self (by omega) (by omega)
        refine ⟨hnew, ?_, ?_⟩
        · show 0 ≤ wrapInt (s.answer4 + task)
          rw [hwrap]; omega
        · show wrapInt (s.answer4 + task) +
            ((s.workers.set i { pending := rest, fibDone := false }).map
              (fun w => w.pending.sum)).sum = S
          rw [hwrap]; omega
      · have hsum := sum_map_set (fun w : StaticWorker => w.pending.sum) _ _ _
          { pending := task :: rest, fibDone := true } hget
        simp only [hpend, List.sum_cons] at hsum
        unfold pendingCost at hc
        refine ⟨?_, ha, ?_⟩
        · intro v hv
          rcases List.mem_or_eq_of_mem_set hv with hmem | rfl
          · exact h.pending_nonneg v hmem
          · intro t ht
            exact hw t (by simpa [hpend] using ht)
        · show s.answer4 + ((s.workers.set i { pending := task :: rest, fibDone := true }).map
              (fun w => w.pending.sum)).sum = S
          omega

theorem runStaticWorkers_inv {S : Int} (hS : S ≤ 2147483647) (sched : List Nat) :
    ∀ s : StaticState, StaticInv S s → StaticInv S (runStaticWorkers s sched).1 := by
  induction sched with
  | nil => intro s h; exact h
  | cons i sched ih =>
    intro s h
    exact ih _ (staticStep_inv hS s i h)

theorem staticInit_inv (threadTasks : List (List Int))
    (hnonneg : ∀ t ∈ threadTasks.flatten, 0 ≤ t) :
    StaticInv threadTasks.flatten.sum (staticInit threadTasks) := by
  refine ⟨?_, le_refl _, ?_⟩
  · intro w hw t ht
    obtain ⟨slot, hslot, rfl⟩ := List.mem_map.1 hw
    exact hnonneg t (List.mem_flatten.2 ⟨slot, hslot, ht⟩)
  · show (0 : Int) + ((threadTasks.map
      (fun threadTask => ({ pending := threadTask, fibDone := false } : StaticWorker))).map
        (fun w => w.pending.sum)).sum = _
    rw [List.sum_flatten, List.map_map]
    simp [Function.comp_def]

theorem pendingCost_of_allJoined {s : StaticState} (h : allJoined s) : pendingCost s = 0 := by
  unfold pendingCost
  apply List.sum_eq_zero
  intro x hx
  obtain ⟨w, hw, rfl⟩ := List.mem_map.1 hx
  rw [h w hw]
  rfl

theorem staticStep_of_allJoined {s : StaticState} (h : allJoined s) (i : Nat) :
    staticStep s i = (s, []) := by
  unfold staticStep
  simp only [List.get?_eq_getElem?]
  split
  · rfl
  · next w hget =>
    have := h w (List.getElem?_mem hget)
    split
    · rfl
    · next task rest hpend => rw [this] at hpend; cases hpend

theorem runStaticWorkers_of_allJoined {s : StaticState} (h : allJoined s) (sched : List Nat) :
    runStaticWorkers s sched = (s, []) := by
  induction sched with
  | nil => rfl
  | cons i sched ih =>
    show ((runStaticWorkers (staticStep s i).1 sched).1,
      (staticStep s i).2 ++ (runStaticWorkers (staticStep s i).1 sched).2) = _
    rw [staticStep_of_allJoined h i, ih]
    rfl

theorem runWorkers_no_workers {s : DynState} (h : s.workers = []) (sched : List Nat) :
    runWorkers s sched = (s, []) := by
  have hstep : ∀ i, workerStep s i = (s, []) := by
    intro i
    unfold workerStep
    rw [h]
    rfl
  induction sched with
  | nil => rfl
  | cons i sched ih =>
    show ((runWorkers (workerStep s i).1 sched).1,
      (workerStep s i).2 ++ (runWorkers (workerStep s i).1 sched).2) = _
    rw [hstep i, ih]
    rfl

theorem runDynamic_of_nonneg (tasks : List Int) (threads16 : Int) (sched : List Nat)
    (hW : 0 ≤ threads16) :
    runDynamic tasks threads16 sched =
      .ok (runWorkers (dynamicInit tasks threads16.toNat) sched) := by
  unfold runDynamic dynamicStart
  rw [if_neg (by omega)]



/-! ## Every run can be completed -/

theorem runWorkers_append (a b : List Nat) :
    ∀ s : DynState, runWorkers s (a ++ b) =
      ((runWorkers (runWorkers s a).1 b).1,
        (runWorkers s a).2 ++ (runWorkers (runWorkers s a).1 b).2) := by
  induction a with
  | nil => intro s; simp [runWorkers]
  | cons i a ih =>
    intro s
    show ((runWorkers (workerStep s i).1 (a ++ b)).1,
      (workerStep s i).2 ++ (runWorkers (workerStep s i).1 (a ++ b)).2) = _
    rw [ih]
    simp [runWorkers, List.append_assoc]

theorem workerStep_queue_length (s : DynState) (i : Nat) :
    (workerStep s i).1.taskQueue.length ≤ s.taskQueue.length := by
  unfold workerStep
  split
  · exact le_refl _
  · exact le_refl _
  · split
    · exact le_refl _
    · next task rest hq => simp [hq]
  · exact le_refl _
  · exact le_refl _

theorem workerStep_exited_stays (s : DynState) (i j : Nat)
    (h : s.workers[j]? = some WorkerPc.exited) :
    (workerStep s i).1.workers[j]? = some WorkerPc.exited := by
  have key : ∀ pc, s.workers[i]? ≠ some WorkerPc.exited →
      (s.workers.set i pc)[j]? = some WorkerPc.exited := by
    intro pc hne
    rw [List.getElem?_set]
    split
    · next hij => subst hij; exact absurd h hne
    · exact h
  unfold workerStep
  simp only [List.get?_eq_getElem?]
  split
  · exact h
  · exact h
  · next hget =>
    split
    · exact key _ (by rw [hget]; simp)
    · exact key _ (by rw [hget]; simp)
  · next task hget => exact key _ (by rw [hget]; simp)
  · next task hget => exact key _ (by rw [hget]; simp)

theorem stepsLeft_set (s : DynState) (i : Nat) (pc : WorkerPc) (queue : List Int) (a : Int)
    (hi : i < s.workers.length) :
    stepsLeft { taskQueue := queue, answer := a, workers := s.workers.set i pc } i =
      match pc with
      | .atLock => 3 * queue.length + 1
      | .holding _ => 3 * queue.length + 3
      | .computed _ => 3 * queue.length + 2
      | .exited => 0 := by
  have hset : (s.workers.set i pc)[i]? = some pc := by
    rw [List.getElem?_set]; simp [hi]
  unfold stepsLeft
  simp only [List.get?_eq_getElem?, hset]
  cases pc <;> rfl

theorem workerStep_stepsLeft (s : DynState) (i : Nat) :
    stepsLeft (workerStep s i).1 i ≤ stepsLeft s i - 1 := by
  rcases hpc : s.workers[i]? with _ | pc
  · have hstep : workerStep s i = (s, []) := by
      unfold workerStep; simp only [List.get?_eq_getElem?, hpc]
    have hleft : stepsLeft s i = 0 := by
      unfold stepsLeft; simp only [List.get?_eq_getElem?, hpc]
    rw [hstep, hleft]
  · have hi : i < s.workers.length := (List.getElem?_eq_some.1 hpc).1
    cases pc with
    | exited =>
      have hstep : workerStep s i = (s, []) := by
        unfold workerStep; simp only [List.get?_eq_getElem?, hpc]
      have hleft : stepsLeft s i = 0 := by
        unfold stepsLeft; simp only [List.get?_eq_getElem?, hpc]
      rw [hstep, hleft]
    | atLock =>
      have hleft : stepsLeft s i = 3 * s.taskQueue.length + 1 := by
        unfold stepsLeft; simp only [List.get?_eq_getElem?, hpc]
      rcases hq : s.taskQueue with _ | ⟨task, rest⟩
      · have hstep : workerStep s i =
            ({ s with workers := s.workers.set i .exited }, [.sawEmpty]) := by
          unfold workerStep; simp only [List.get?_eq_getElem?, hpc, hq]
        rw [hstep, stepsLeft_set s i _ _ _ hi]
        exact Nat.zero_le _
      · have hstep : workerStep s i =
            ({ s with taskQueue := rest, workers := s.workers.set i (.holding task) },
              [.took task]) := by
          unfold workerStep; simp only [List.get?_eq_getElem?, hpc, hq]
        rw [hstep, stepsLeft_set s i _ _ _ hi, hleft, hq]
        simp only [List.length_cons]
        omega
    | holding task =>
      have hleft : stepsLeft s i = 3 * s.taskQueue.length + 3 := by
        unfold stepsLeft; simp only [List.get?_eq_getElem?, hpc]
      have hstep : workerStep s i =
          ({ s with workers := s.workers.set i (.computed task) },
            [.fibCall (wrapInt (ITERATIONS_FOR_ONE_MS_FIB_N_I9_1200K * task))]) := by
        unfold workerStep; simp only [List.get?_eq_getElem?, hpc]
      rw [hstep, stepsLeft_set s i _ _ _ hi, hleft]
      show 3 * s.taskQueue.length + _ ≤ _
      omega
    | computed task =>
      have hleft : stepsLeft s i = 3 * s.taskQueue.length + 2 := by
        unfold stepsLeft; simp only [List.get?_eq_getElem?, hpc]
      have hstep : workerStep s i =
          ({ s with answer := wrapInt (s.answer + task), workers := s.workers.set i .atLock },
            [.added task]) := by
        unfold workerStep; simp only [List.get?_eq_getElem?, hpc]
      rw [hstep, stepsLeft_set s i _ _ _ hi, hleft]
      show 3 * s.taskQueue.length + _ ≤ _
      omega

theorem stepsLeft_le (s : DynState) (i : Nat) : stepsLeft s i ≤ 3 * s.taskQueue.length + 3 := by
  unfold stepsLeft
  split <;> omega

theorem exited_of_stepsLeft_eq_zero (s : DynState) (i : Nat) (hi : i < s.workers.length)
    (h : stepsLeft s i = 0) : s.workers[i]? = some WorkerPc.exited := by
  unfold stepsLeft at h
  simp only [List.get?_eq_getElem?] at h
  split at h
  · omega
  · omega
  · omega
  · next h1 h2 h3 =>
    obtain ⟨pc, hpc⟩ : ∃ pc, s.workers[i]? = some pc :=
      ⟨s.workers[i], List.getElem?_eq_getElem hi⟩
    cases pc with
    | atLock => exact absurd hpc (h1)
    | holding task => exact absurd hpc (h2 task)
    | computed task => exact absurd hpc (h3 task)
    | exited => exact hpc

theorem runWorkers_queue_length (sched : List Nat) :
    ∀ s : DynState, (runWorkers s sched).1.taskQueue.length ≤ s.taskQueue.length := by
  induction sched with
  | nil => intro s; exact le_refl _
  | cons i sched ih =>
    intro s
    exact le_trans (ih _) (workerStep_queue_length s i)

theorem runWorkers_exited_stays (sched : List Nat) :
    ∀ (s : DynState) (j : Nat), s.workers[j]? = some WorkerPc.exited →
      (runWorkers s sched).1.workers[j]? = some WorkerPc.exited := by
  induction sched with
  | nil => intro s j h; exact h
  | cons i sched ih =>
    intro s j h
    exact ih _ j (workerStep_exited_stays s i j h)

theorem runWorkers_replicate_stepsLeft (i : Nat) (k : Nat) :
    ∀ s : DynState, stepsLeft (runWorkers s (List.replicate k i)).1 i ≤ stepsLeft s i - k := by
  induction k with
  | zero => intro s; exact le_refl _
  | succ k ih =>
    intro s
    have h1 := ih (workerStep s i).1
    have h2 := workerStep_stepsLeft s i
    show stepsLeft (runWorkers (workerStep s i).1 (List.replicate k i)).1 i ≤ _
    omega

theorem runWorkers_joinSchedule (steps : Nat) (threads : Nat) :
    ∀ s : DynState, threads ≤ s.workers.length → 3 * s.taskQueue.length + 3 ≤ steps →
      ∀ j < threads,
        (runWorkers s (joinSchedule steps threads)).1.workers[j]? = some WorkerPc.exited := by
  induction threads with
  | zero => intro s _ _ j hj; omega
  | succ threads ih =>
    intro s hlen hsteps j hj
    show (runWorkers s (joinSchedule steps threads ++ List.replicate steps threads)).1.workers[j]?
      = _
    rw [runWorkers_append]
    show (runWorkers (runWorkers s (joinSchedule steps threads)).1
      (List.replicate steps threads)).1.workers[j]? = _
    by_cases hjt : j < threads
    · exact runWorkers_exited_stays _ _ j (ih s (by omega) hsteps j hjt)
    · have hjeq : j = threads := by omega
      subst hjeq
      have hq := runWorkers_queue_length (joinSchedule steps j) s
      have hl := runWorkers_workers_length (joinSchedule steps j) s
      have h1 := runWorkers_replicate_stepsLeft j steps (runWorkers s (joinSchedule steps j)).1
      have h2 := stepsLeft_le (runWorkers s (joinSchedule steps j)).1 j
      apply exited_of_stepsLeft_eq_zero
      · rw [runWorkers_workers_length, hl]; omega
      · omega

theorem allExited_joinSchedule (steps : Nat) (s : DynState)
    (hsteps : 3 * s.taskQueue.length + 3 ≤ steps) :
    allExited (runWorkers s (joinSchedule steps s.workers.length)).1 := by
  intro pc hpc
  obtain ⟨j, hj⟩ := List.mem_iff_getElem?.1 hpc
  have hjlt : j < s.workers.length := by
    have h5 := (List.getElem?_eq_some.1 hj).1
    rw [runWorkers_workers_length] at h5
    exact h5
  have := runWorkers_joinSchedule steps s.workers.length s (le_refl _) hsteps j hjlt
  rw [hj] at this
  exact Option.some.inj this

theorem runStaticWorkers_append (a b : List Nat) :
    ∀ s : StaticState, runStaticWorkers s (a ++ b) =
      ((runStaticWorkers (runStaticWorkers s a).1 b).1,
        (runStaticWorkers s a).2 ++ (runStaticWorkers (runStaticWorkers s a).1 b).2) := by
  induction a with
  | nil => intro s; simp [runStaticWorkers]
  | cons i a ih =>
    intro s
    show ((runStaticWorkers (staticStep s i).1 (a ++ b)).1,
      (staticStep s i).2 ++ (runStaticWorkers (staticStep s i).1 (a ++ b)).2) = _
    rw [ih]
    simp [runStaticWorkers, List.append_assoc]

/-- What one action of worker `i` does to the list of workers. -/
theorem staticStep_cases (s : StaticState) (i : Nat) :
    (staticStep s i).1.workers = s.workers ∧ staticLeft s i = 0 ∨
    ∃ w task rest, s.workers[i]? = some w ∧ w.pending = task :: rest ∧
      ((w.fibDone = true ∧
          (staticStep s i).1.workers = s.workers.set i { pending := rest, fibDone := false }) ∨
        (w.fibDone = false ∧
          (staticStep s i).1.workers =
            s.workers.set i { pending := task :: rest, fibDone := true })) := by
  unfold staticStep staticLeft
  simp only [List.get?_eq_getElem?]
  rcases hget : s.workers[i]? with _ | w
  · exact Or.inl ⟨rfl, rfl⟩
  · rcases hp : w.pending with _ | ⟨task, rest⟩
    · left
      simp [hp]
    · right
      refine ⟨w, task, rest, rfl, hp, ?_⟩
      by_cases hf : w.fibDone = true
      · left; simp [hf, hp]
      · right; simp [hf, hp]

theorem staticStep_workers_length (s : StaticState) (i : Nat) :
    (staticStep s i).1.workers.length = s.workers.length := by
  rcases staticStep_cases s i with
    ⟨h, -⟩ | ⟨w, task, rest, -, -, ⟨-, h⟩ | ⟨-, h⟩⟩ <;> rw [h] <;> simp

theorem runStaticWorkers_workers_length (sched : List Nat) :
    ∀ s : StaticState, (runStaticWorkers s sched).1.workers.length = s.workers.length := by
  induction sched with
  | nil => intro s; rfl
  | cons i sched ih =>
    intro s
    show (runStaticWorkers (staticStep s i).1 sched).1.workers.length = _
    rw [ih, staticStep_workers_length]

theorem staticStep_pending_le (L : Nat) (s : StaticState) (i : Nat)
    (h : ∀ w ∈ s.workers, w.pending.length ≤ L) :
    ∀ w ∈ (staticStep s i).1.workers, w.pending.length ≤ L := by
  rcases staticStep_cases s i with
    ⟨hs, -⟩ | ⟨w, task, rest, hget, hp, ⟨-, hs⟩ | ⟨-, hs⟩⟩
  · rw [hs]; exact h
  · rw [hs]
    intro v hv
    have hw := h w (List.getElem?_mem hget)
    rw [hp] at hw
    rcases List.mem_or_eq_of_mem_set hv with hmem | rfl
    · exact h v hmem
    · simp at hw ⊢; omega
  · rw [hs]
    intro v hv
    have hw := h w (List.getElem?_mem hget)
    rw [hp] at hw
    rcases List.mem_or_eq_of_mem_set hv with hmem | rfl
    · exact h v hmem
    · exact hw

theorem runStaticWorkers_pending_le (L : Nat) (sched : List Nat) :
    ∀ s : StaticState, (∀ w ∈ s.workers, w.pending.length ≤ L) →
      ∀ w ∈ (runStaticWorkers s sched).1.workers, w.pending.length ≤ L := by
  induction sched with
  | nil => intro s h; exact h
  | cons i sched ih =>
    intro s h
    exact ih _ (staticStep_pending_le L s i h)

theorem staticStep_joined_stays (s : StaticState) (i j : Nat) (h : workerJoined s j) :
    workerJoined (staticStep s i).1 j := by
  obtain ⟨v, hv, hvp⟩ := h
  rcases staticStep_cases s i with ⟨hs, -⟩ | ⟨w, task, rest, hget, hp, hs⟩
  · exact ⟨v, by rw [hs]; exact hv, hvp⟩
  · have hij : i ≠ j := by
      intro hij
      subst hij
      rw [hv] at hget
      cases hget
      rw [hvp] at hp
      cases hp
    rcases hs with ⟨-, hs⟩ | ⟨-, hs⟩ <;>
      exact ⟨v, by rw [hs, List.getElem?_set_ne hij]; exact hv, hvp⟩

theorem runStaticWorkers_joined_stays (sched : List Nat) :
    ∀ (s : StaticState) (j : Nat), workerJoined s j →
      workerJoined (runStaticWorkers s sched).1 j := by
  induction sched with
  | nil => intro s j h; exact h
  | cons i sched ih =>
    intro s j h
    exact ih _ j (staticStep_joined_stays s i j h)

theorem staticLeft_eq (s : StaticState) (i : Nat) (w : StaticWorker)
    (h : s.workers[i]? = some w) :
    staticLeft s i = if w.fibDone = true then 2 * w.pending.length - 1
      else 2 * w.pending.length := by
  unfold staticLeft
  simp only [List.get?_eq_getElem?, h]

theorem staticStep_staticLeft (s : StaticState) (i : Nat) :
    staticLeft (staticStep s i).1 i ≤ staticLeft s i - 1 := by
  rcases staticStep_cases s i with ⟨hs, h0⟩ | ⟨w, task, rest, hget, hp, hs⟩
  · have hsame : staticLeft (staticStep s i).1 i = staticLeft s i := by
      unfold staticLeft; rw [hs]
    rw [hsame, h0]
  · have hi : i < s.workers.length := (List.getElem?_eq_some.1 hget).1
    have hset : ∀ v, (s.workers.set i v)[i]? = some v := by
      intro v; rw [List.getElem?_set]; simp [hi]
    rcases hs with ⟨hf, hs⟩ | ⟨hf, hs⟩
    · rw [staticLeft_eq _ i _ (by rw [hs]; exact hset _), staticLeft_eq s i w hget,
        if_neg (by simp), if_pos hf, hp]
      simp only [List.length_cons]
      omega
    · rw [staticLeft_eq _ i _ (by rw [hs]; exact hset _), staticLeft_eq s i w hget,
        if_pos rfl, if_neg (by simp [hf]), hp]

theorem runStaticWorkers_replicate_staticLeft (i : Nat) (k : Nat) :
    ∀ s : StaticState,
      staticLeft (runStaticWorkers s (List.replicate k i)).1 i ≤ staticLeft s i - k := by
  induction k with
  | zero => intro s; exact le_refl _
  | succ k ih =>
    intro s
    have h1 := ih (staticStep s i).1
    have h2 := staticStep_staticLeft s i
    show staticLeft (runStaticWorkers (staticStep s i).1 (List.replicate k i)).1 i ≤ _
    omega

theorem joined_of_staticLeft_eq_zero (s : StaticState) (i : Nat) (hi : i < s.workers.length)
    (h : staticLeft s i = 0) : workerJoined s i := by
  have hget : s.workers[i]? = some s.workers[i] := List.getElem?_eq_getElem hi
  rw [staticLeft_eq s i _ hget] at h
  refine ⟨s.workers[i], hget, ?_⟩
  apply List.eq_nil_of_length_eq_zero
  split at h <;> omega

theorem staticLeft_le (L : Nat) (s : StaticState) (i : Nat)
    (h : ∀ w ∈ s.workers, w.pending.length ≤ L) : staticLeft s i ≤ 2 * L := by
  rcases hget : s.workers[i]? with _ | w
  · have : staticLeft s i = 0 := by
      unfold staticLeft; simp only [List.get?_eq_getElem?, hget]
    omega
  · have := h w (List.getElem?_mem hget)
    rw [staticLeft_eq s i w hget]
    split <;> omega

theorem runStaticWorkers_joinSchedule (L : Nat) (threads : Nat) :
    ∀ s : StaticState, threads ≤ s.workers.length →
      (∀ w ∈ s.workers, w.pending.length ≤ L) →
      ∀ j < threads, workerJoined (runStaticWorkers s (joinSchedule (2 * L) threads)).1 j := by
  induction threads with
  | zero => intro s _ _ j hj; omega
  | succ threads ih =>
    intro s hlen hL j hj
    show workerJoined
      (runStaticWorkers s (joinSchedule (2 * L) threads ++ List.replicate (2 * L) threads)).1 j
    rw [runStaticWorkers_append]
    show workerJoined (runStaticWorkers (runStaticWorkers s (joinSchedule (2 * L) threads)).1
      (List.replicate (2 * L) threads)).1 j
    by_cases hjt : j < threads
    · exact runStaticWorkers_joined_stays _ _ j (ih s (by omega) hL j hjt)
    · have hjeq : j = threads := by omega
      subst hjeq
      have hl := runStaticWorkers_workers_length (joinSchedule (2 * L) j) s
      have hL2 := runStaticWorkers_pending_le L (joinSchedule (2 * L) j) s hL
      have h1 := runStaticWorkers_replicate_staticLeft j (2 * L)
        (runStaticWorkers s (joinSchedule (2 * L) j)).1
      have h2 := staticLeft_le L (runStaticWorkers s (joinSchedule (2 * L) j)).1 j hL2
      apply joined_of_staticLeft_eq_zero
      · rw [runStaticWorkers_workers_length, hl]; omega
      · omega

theorem allJoined_joinSchedule (L : Nat) (s : StaticState)
    (hL : ∀ w ∈ s.workers, w.pending.length ≤ L) :
    allJoined (runStaticWorkers s (joinSchedule (2 * L) s.workers.length)).1 := by
  intro w hw
  obtain ⟨j, hj⟩ := List.mem_iff_getElem?.1 hw
  have hjlt : j < s.workers.length := by
    have h5 := (List.getElem?_eq_some.1 hj).1
    rw [runStaticWorkers_workers_length] at h5
    exact h5
  obtain ⟨v, hv, hvp⟩ :=
    runStaticWorkers_joinSchedule L s.workers.length s (le_refl _) hL j hjlt
  rw [hj] at hv
  cases hv
  exact hvp

theorem length_le_flatten_of_mem {slots : List (List Int)} {slot : List Int}
    (h : slot ∈ slots) : slot.length ≤ slots.flatten.length := by
  induction slots with
  | nil => simp at h
  | cons a l ih =>
    simp only [List.flatten_cons, List.length_append]
    rcases List.mem_cons.1 h with rfl | h2
    · omega
    · have := ih h2
      omega

/-! ## The claims -/

/-- Claim C1. Shared-queue policy: for a batch of non-negative units whose sum fits in `int`
and at least one worker, every state reached under any schedule satisfies
`answer + (costs taken but not yet added) + sum(queue) = sum(batch)`, and in every state in
which all workers have exited `answer = sum(batch)`. Such a state is reached from every
reachable state by letting the workers finish one after the other. -/
theorem dynamic_conserves_total_cost (tasks : List Int) (threads16 : Int) (sched : List Nat)
    (hnonneg : ∀ t ∈ tasks, 0 ≤ t) (hfits : tasks.sum ≤ INT_MAX) (hW : 1 ≤ threads16) :
    runDynamic tasks threads16 sched =
      .ok (runWorkers (dynamicInit tasks threads16.toNat) sched) ∧
    (runWorkers (dynamicInit tasks threads16.toNat) sched).1.answer +
      inFlight (runWorkers (dynamicInit tasks threads16.toNat) sched).1 +
      (runWorkers (dynamicInit tasks threads16.toNat) sched).1.taskQueue.sum = tasks.sum ∧
    (allExited (runWorkers (dynamicInit tasks threads16.toNat) sched).1 →
      (runWorkers (dynamicInit tasks threads16.toNat) sched).1.answer = tasks.sum) ∧
    allExited (runWorkers (dynamicInit tasks threads16.toNat)
      (sched ++ joinSchedule (3 * tasks.length + 3) threads16.toNat)).1 := by
  have hinv := runWorkers_inv (S := tasks.sum) hfits sched _
    (dynamicInit_inv tasks threads16.toNat hnonneg)
  have hlen := runWorkers_workers_length sched (dynamicInit tasks threads16.toNat)
  have hlen0 : (dynamicInit tasks threads16.toNat).workers.length = threads16.toNat :=
    List.length_replicate _ _
  have hjoin : allExited (runWorkers (dynamicInit tasks threads16.toNat)
      (sched ++ joinSchedule (3 * tasks.length + 3) threads16.toNat)).1 := by
    have hq := runWorkers_queue_length sched (dynamicInit tasks threads16.toNat)
    have hq0 : (dynamicInit tasks threads16.toNat).taskQueue.length = tasks.length :=
      List.length_insertionSort _ tasks
    have h := allExited_joinSchedule (3 * tasks.length + 3)
      (runWorkers (dynamicInit tasks threads16.toNat) sched).1 (by omega)
    rw [hlen, hlen0] at h
    rw [runWorkers_append]
    exact h
  refine ⟨runDynamic_of_nonneg tasks threads16 sched (by omega), hinv.conserved, ?_, hjoin⟩
  intro hall
  have hne : (runWorkers (dynamicInit tasks threads16.toNat) sched).1.workers ≠ [] := by
    intro hnil
    rw [hnil, hlen0] at hlen
    simp at hlen
    omega
  obtain ⟨pc, hpc⟩ := List.exists_mem_of_ne_nil _ hne
  have hq := hinv.drained ⟨pc, hpc, hall pc hpc⟩
  have hc := hinv.conserved
  rw [inFlight_of_allExited hall, hq] at hc
  simpa using hc

set_option maxRecDepth 20000 in
/-- Witness for claim C1. The 64-unit batch of lines 190-193 with 16 workers, worker 0 draining
the queue before the others look at it: all workers exit and `answer` is 1600. -/
theorem dynamic_conserves_total_cost_witness :
    (∀ t ∈ benchmarkBatch, 0 ≤ t) ∧ benchmarkBatch.sum ≤ INT_MAX ∧ (1 : Int) ≤ 16 ∧
    allExited (runWorkers (dynamicInit benchmarkBatch (16 : Int).toNat)
      (drainSchedule 64 16)).1 ∧
    (runWorkers (dynamicInit benchmarkBatch (16 : Int).toNat) (drainSchedule 64 16)).1.answer
      = 1600 :=
  ⟨by decide, by decide, by decide, by decide,
    ((dynamic_conserves_total_cost benchmarkBatch 16 (drainSchedule 64 16)
      (by decide) (by decide) (by decide)).2.2.1 (by decide)).trans (by decide)⟩

/-- Claim C2, the code at the failing input. Three units of cost 1 and 2 workers: the target
is 1, each slot takes one unit, the loop over the slots ends, and the third unit is still in
`tasks4`, handed to no worker. After both workers have joined `answer4` is 2 while the batch
sums to 3. The shared-queue experiment on the same batch with 2 workers ends with
`answer = 3`. -/
theorem static_total_misses_leftover :
    planPartition [1, 1, 1] 2 = .ok ⟨[[1], [1]], [1]⟩ ∧
    runStatic [1, 1, 1] 2 [0, 0, 1, 1] =
      .ok (⟨2, [⟨[], false⟩, ⟨[], false⟩]⟩,
        [.fibCall 1136363, .added 1, .fibCall 1136363, .added 1]) ∧
    allJoined ⟨2, [⟨[], false⟩, ⟨[], false⟩]⟩ ∧
    (2 : Int) ≠ ([1, 1, 1] : List Int).sum ∧
    (runWorkers (dynamicInit [1, 1, 1] 2) (drainSchedule 3 2)).1 =
      ⟨[], 3, [.exited, .exited]⟩ := by
  refine ⟨rfl, rfl, by decide, by decide, rfl⟩

/-- The `int` total of the greedy workers beyond the range of `int`: three units of cost
2147483647 with 3 workers are all placed, one per slot, and `answer4` ends as 2147483645
while the batch sums to 6442450941. -/
theorem static_total_wraps_beyond_int :
    planPartition [2147483647, 2147483647, 2147483647] 3 =
      .ok ⟨[[2147483647], [2147483647], [2147483647]], []⟩ ∧
    (runStaticWorkers (staticInit [[2147483647], [2147483647], [2147483647]])
      [0, 0, 1, 1, 2, 2]).1 =
        ⟨2147483645, [⟨[], false⟩, ⟨[], false⟩, ⟨[], false⟩]⟩ ∧
    (2147483645 : Int) ≠ ([2147483647, 2147483647, 2147483647] : List Int).sum := by
  refine ⟨rfl, rfl, by decide⟩

/-- What the greedy workers add up. For a batch of non-negative units whose sum fits in `int`
and a thread count on which the planner completes, the cost placed in the slots plus the
cost left in the pool is the sum of the batch, and in every state in which all workers have
gone through their slot `answer4` is the cost placed in the slots: the cost left in the
pool is what `answer4` lacks. Such a state is reached from every reachable state by letting
the workers finish one after the other. -/
theorem static_total_is_slot_cost (tasks4 : List Int) (threads16 : Int) (plan : Plan)
    (sched : List Nat) (hnonneg : ∀ t ∈ tasks4, 0 ≤ t) (hfits : tasks4.sum ≤ INT_MAX)
    (hplan : planPartition tasks4 threads16 = .ok plan) :
    plan.threadTasks.flatten.sum + plan.tasks4.sum = tasks4.sum ∧
    runStatic tasks4 threads16 sched =
      .ok (runStaticWorkers (staticInit plan.threadTasks) sched) ∧
    (allJoined (runStaticWorkers (staticInit plan.threadTasks) sched).1 →
      (runStaticWorkers (staticInit plan.threadTasks) sched).1.answer4 =
        plan.threadTasks.flatten.sum) ∧
    allJoined (runStaticWorkers (staticInit plan.threadTasks)
      (sched ++ joinSchedule (2 * tasks4.length) plan.threadTasks.length)).1 := by
  have hperm := planPartition_perm hplan
  have hsum : plan.threadTasks.flatten.sum + plan.tasks4.sum = tasks4.sum := by
    rw [← List.sum_append]; exact hperm.sum_eq
  have hslots : ∀ t ∈ plan.threadTasks.flatten, 0 ≤ t := fun t ht =>
    hnonneg t (hperm.mem_iff.1 (List.mem_append_left _ ht))
  have hpool : ∀ t ∈ plan.tasks4, 0 ≤ t := fun t ht =>
    hnonneg t (hperm.mem_iff.1 (List.mem_append_right _ ht))
  have hps := sum_nonneg_of_forall hpool
  have hfits2 : tasks4.sum ≤ 2147483647 := hfits
  have hinv := runStaticWorkers_inv (S := plan.threadTasks.flatten.sum) (by omega) sched _
    (staticInit_inv plan.threadTasks hslots)
  have hjoin : allJoined (runStaticWorkers (staticInit plan.threadTasks)
      (sched ++ joinSchedule (2 * tasks4.length) plan.threadTasks.length)).1 := by
    have hL0 : ∀ w ∈ (staticInit plan.threadTasks).workers,
        w.pending.length ≤ tasks4.length := by
      intro w hw
      obtain ⟨slot, hslot, rfl⟩ := List.mem_map.1 hw
      have h1 := length_le_flatten_of_mem hslot
      have h2 := hperm.length_eq
      rw [List.length_append] at h2
      show slot.length ≤ _
      omega
    have hL := runStaticWorkers_pending_le tasks4.length sched _ hL0
    have h := allJoined_joinSchedule tasks4.length
      (runStaticWorkers (staticInit plan.threadTasks) sched).1 hL
    have hlen : (runStaticWorkers (staticInit plan.threadTasks) sched).1.workers.length =
        plan.threadTasks.length := by
      rw [runStaticWorkers_workers_length]
      exact List.length_map _ _
    rw [hlen] at h
    rw [runStaticWorkers_append]
    exact h
  refine ⟨hsum, by unfold runStatic; rw [hplan], ?_, hjoin⟩
  intro hall
  have hc := hinv.conserved
  rw [pendingCost_of_allJoined hall] at hc
  simpa using hc

set_option maxRecDepth 20000 in
/-- The 64-unit batch of lines 236-239 with 16 threads, the workers running one after the
other: nothing is left in the pool, all workers finish and `answer4` is 1600, the total the
assertion of line 279 expects. -/
theorem static_total_is_slot_cost_witness :
    (∀ t ∈ benchmarkBatch, 0 ≤ t) ∧ benchmarkBatch.sum ≤ INT_MAX ∧
    planPartition benchmarkBatch 16 = .ok benchmarkPlan ∧ benchmarkPlan.tasks4 = [] ∧
    allJoined (runStaticWorkers (staticInit benchmarkPlan.threadTasks)
      (sequentialSchedule 0 benchmarkPlan.threadTasks)).1 ∧
    (runStaticWorkers (staticInit benchmarkPlan.threadTasks)
      (sequentialSchedule 0 benchmarkPlan.threadTasks)).1.answer4 = 1600 :=
  ⟨by decide, by decide, rfl, rfl, by decide,
    ((static_total_is_slot_cost benchmarkBatch 16 benchmarkPlan
      (sequentialSchedule 0 benchmarkPlan.threadTasks) (by decide) (by decide) rfl).2.2.1
      (by decide)).trans (by decide)⟩

/-- Claim C3, the code at the failing input. Five units of cost 1 and 2 workers: the target
is 2, each slot takes two units, and the fifth unit is in no slot: it stays in `tasks4`
after the last slot and is not appended to it, so the slots are not the batch as a
multiset. Units of cost 1 and 2 with 4 workers: the target is 0 and no unit is in any slot. -/
theorem slots_do_not_cover_batch :
    planPartition [1, 1, 1, 1, 1] 2 = .ok ⟨[[1, 1], [1, 1]], [1]⟩ ∧
    ¬ ([[1, 1], [1, 1]] : List (List Int)).flatten.Perm [1, 1, 1, 1, 1] ∧
    planPartition [1, 2] 4 = .ok ⟨[[], [], [], []], [1, 2]⟩ ∧
    ¬ ([[], [], [], []] : List (List Int)).flatten.Perm [1, 2] := by
  refine ⟨rfl, fun h => ?_, rfl, fun h => ?_⟩
  · have := h.length_eq
    simp at this
  · have := h.length_eq
    simp at this

/-- Where the units are when the planner completes: it returns as many slots as there are
threads, and the slots concatenated together with the units still in the pool are the batch
as a multiset, so no unit is in two slots and a unit in no slot is still in the pool. -/
theorem slots_and_pool_cover_batch (tasks4 : List Int) (threads16 : Int) (plan : Plan)
    (hplan : planPartition tasks4 threads16 = .ok plan) :
    (plan.threadTasks.length : Int) = threads16 ∧
    (plan.threadTasks.flatten ++ plan.tasks4).Perm tasks4 :=
  ⟨(planPartition_split hplan).1, planPartition_perm hplan⟩

/-- Batch `{2, 1, 2}` with 2 threads: slots `{1, 2}` and `{2}`, nothing left in the pool. -/
theorem slots_and_pool_cover_batch_witness :
    planPartition [2, 1, 2] 2 = .ok ⟨[[1, 2], [2]], []⟩ ∧
    ((([[1, 2], [2]] : List (List Int)).length : Int) = 2 ∧
      (([[1, 2], [2]] : List (List Int)).flatten ++ []).Perm [2, 1, 2]) :=
  ⟨rfl, slots_and_pool_cover_batch [2, 1, 2] 2 ⟨[[1, 2], [2]], []⟩ rfl⟩

/-- Counterexample to claim C5 as stated. With 0 workers the shared-queue run does not fail: it
starts no worker, the joins return at once, and it ends with `answer = 0` and all three
units still in the queue. -/
theorem zero_workers_not_rejected :
    runDynamic [50, 100, 25] 0 [] = .ok (⟨[100, 50, 25], 0, []⟩, []) ∧
    allExited ⟨[100, 50, 25], 0, []⟩ := by
  refine ⟨rfl, by decide⟩

/-- Claim C5, amended. There is no configuration check and no InvalidConfiguration error.
With thread count -1 both policies stop before any unit is handed out: the shared-queue run
with the `length_error` of `reserve`, the planner with that error or already at the
division. With thread count 0 the planner stops at the division by zero and computes no
partition, while the shared-queue run starts no worker and ends, under any schedule, with
`answer = 0` and the whole sorted batch still in the queue. -/
theorem nonpositive_thread_count (tasks : List Int) (sched : List Nat) :
    runDynamic tasks (-1) sched = .error .length_error ∧
    (planPartition tasks (-1) = .error .length_error ∨
      planPartition tasks (-1) = .error .divisionOverflow) ∧
    (runStatic tasks (-1) sched = .error .length_error ∨
      runStatic tasks (-1) sched = .error .divisionOverflow) ∧
    planPartition tasks 0 = .error .divisionByZero ∧
    runStatic tasks 0 sched = .error .divisionByZero ∧
    runDynamic tasks 0 sched = .ok (⟨sortDescending tasks, 0, []⟩, []) ∧
    allExited ⟨sortDescending tasks, 0, []⟩ := by
  have hplan : planPartition tasks (-1) = .error .length_error ∨
      planPartition tasks (-1) = .error .divisionOverflow := by
    unfold planPartition
    rw [if_neg (by decide)]
    by_cases hmin : totalWorkload tasks = -2147483648
    · right; rw [if_pos ⟨hmin, rfl⟩]
    · left; rw [if_neg (fun h => hmin h.1), if_pos (by decide)]
  refine ⟨rfl, hplan, ?_, rfl, rfl, ?_, ?_⟩
  · unfold runStatic
    rcases hplan with h | h <;> rw [h] <;> simp
  · show Except.ok (runWorkers (dynamicInit tasks 0) sched) = _
    rw [runWorkers_no_workers rfl]
    rfl
  · intro pc hpc
    cases hpc

/-- Claim C6. Empty batch, 4 workers. Shared queue: under every schedule in which each of the
4 workers acts at least once the run ends with all workers exited, `answer = 0`, no
`fibonacci` call, and every action was a worker finding the queue empty and leaving.
Greedy: the target is 0, the planner returns 4 empty slots, and under any schedule the
workers are finished from the start, with `answer4 = 0` and no action at all. -/
theorem degenerate_run (sched : List Nat) (hfair : ∀ i < 4, i ∈ sched) :
    (runDynamic [] 4 sched = .ok (runWorkers (dynamicInit [] 4) sched) ∧
      allExited (runWorkers (dynamicInit [] 4) sched).1 ∧
      (runWorkers (dynamicInit [] 4) sched).1.answer = 0 ∧
      fibCalls (runWorkers (dynamicInit [] 4) sched).2 = 0 ∧
      ∀ e ∈ (runWorkers (dynamicInit [] 4) sched).2, e = Event.sawEmpty) ∧
    (optimalThreadWorkload [] 4 = 0 ∧
      planPartition [] 4 = .ok ⟨[[], [], [], []], []⟩ ∧
      runStatic [] 4 sched = .ok (⟨0, List.replicate 4 ⟨[], false⟩⟩, []) ∧
      allJoined ⟨0, List.replicate 4 ⟨[], false⟩⟩) := by
  have hinit : EmptyInv (dynamicInit [] 4) :=
    ⟨rfl, rfl, fun pc hpc => Or.inl (List.eq_of_mem_replicate hpc)⟩
  obtain ⟨h1, h2, -, h4⟩ := runWorkers_empty sched (dynamicInit [] 4) hinit
  have hlen := runWorkers_workers_length sched (dynamicInit [] 4)
  have hjoined : allJoined ⟨0, List.replicate 4 ⟨[], false⟩⟩ := by decide
  refine ⟨⟨rfl, ?_, h1.answer_zero, fibCalls_of_sawEmpty h2, h2⟩, rfl, rfl, ?_, hjoined⟩
  · intro pc hpc
    obtain ⟨j, hj⟩ := List.mem_iff_getElem?.1 hpc
    have hjlt : j < 4 := by
      have h5 : j < (runWorkers (dynamicInit [] 4) sched).1.workers.length := by
        by_contra hcon
        rw [List.getElem?_eq_none_iff.2 (by omega)] at hj
        cases hj
      rw [hlen] at h5
      exact h5
    have := h4 j (hfair j hjlt) hjlt
    rw [hj] at this
    exact Option.some.inj this
  · show Except.ok (runStaticWorkers ⟨0, List.replicate 4 ⟨[], false⟩⟩ sched) = _
    rw [runStaticWorkers_of_allJoined hjoined]

/-- Witness for claim C6. Empty batch, 4 workers, the workers acting in the order 3, 1, 0, 2. -/
theorem degenerate_run_witness :
    (∀ i < 4, i ∈ [3, 1, 0, 2]) ∧
    runDynamic [] 4 [3, 1, 0, 2] =
      .ok (⟨[], 0, [.exited, .exited, .exited, .exited]⟩,
        [.sawEmpty, .sawEmpty, .sawEmpty, .sawEmpty]) ∧
    allExited (runWorkers (dynamicInit [] 4) [3, 1, 0, 2]).1 ∧
    runStatic [] 4 [3, 1, 0, 2] = .ok (⟨0, List.replicate 4 ⟨[], false⟩⟩, []) :=
  ⟨by decide, rfl, (degenerate_run [3, 1, 0, 2] (by decide)).1.2.1,
    (degenerate_run [3, 1, 0, 2] (by decide)).2.2.2.1⟩

/-- Claim C7, the code at the failing input. One unit of cost 2 and 2 threads: the thread
count exceeds the number of non-zero units, the target is 1, slot 0 takes the unit, and the
loop for slot 1 calls `tasks4.back()` on the empty pool. -/
theorem planner_reads_exhausted_pool :
    (([2] : List Int).filter (fun task => task ≠ 0)).length < 2 ∧
    optimalThreadWorkload [2] 2 = 1 ∧
    fillSlot 1 [2] 0 [] = .ok ([2], []) ∧
    fillSlot 1 [] 0 [] = .error .backOnEmpty ∧
    planPartition [2] 2 = .error .backOnEmpty := by
  refine ⟨by decide, rfl, rfl, rfl, rfl⟩

set_option maxRecDepth 20000 in
/-- Claim C8. Benchmark batch (64 units, total cost 1600) with 16 threads: the target is 100,
the largest unit is 100, the planner completes and leaves nothing in the pool, and every
slot costs at most 200. -/
theorem benchmark_makespan_bound :
    benchmarkBatch.length = 64 ∧ benchmarkBatch.sum = 1600 ∧
    optimalThreadWorkload benchmarkBatch 16 = 100 ∧ maxUnit benchmarkBatch = 100 ∧
    ∃ plan, planPartition benchmarkBatch 16 = .ok plan ∧
      plan.threadTasks.length = 16 ∧ plan.tasks4 = [] ∧
      ∀ slot ∈ plan.threadTasks, slot.sum ≤ 100 + 100 := by
  refine ⟨rfl, by decide, by decide, by decide, benchmarkPlan, rfl, rfl, rfl, by decide⟩

/-- Counterexample to claim C10 as stated. Units 2147483647 and 1 with 1 thread: the `int` sum wraps
to -2147483648, which is the target the loop compares with, so the planner completes with an
empty slot although `floor(sum / 1)` is 2147483648: the slot's cost 0 is below that target,
and the slot is empty with a target that is not 0. -/
theorem slot_fill_fails_on_overflow :
    planPartition [2147483647, 1] 1 = .ok ⟨[[]], [1, 2147483647]⟩ ∧
    optimalThreadWorkload [2147483647, 1] 1 = -2147483648 ∧
    ¬ (([2147483647, 1] : List Int).sum / 1 ≤ ([] : List Int).sum) ∧
    ([2147483647, 1] : List Int).sum / 1 ≠ 0 := by
  refine ⟨rfl, rfl, by decide, by decide⟩

/-- Claim C10, amended. For a batch of non-negative units whose sum fits in `int` and a thread
count on which the planner completes, the target is `floor(sum / threads)` and every slot
costs at least the target; a non-empty slot without its last unit costs strictly less than
the target; so every slot costs at most the target plus the largest unit, and a slot is
empty exactly when the target is 0. -/
theorem slots_are_minimal_fills (tasks4 : List Int) (threads16 : Int) (plan : Plan)
    (hnonneg : ∀ t ∈ tasks4, 0 ≤ t) (hfits : tasks4.sum ≤ INT_MAX)
    (hplan : planPartition tasks4 threads16 = .ok plan) :
    1 ≤ threads16 ∧
    optimalThreadWorkload tasks4 threads16 = tasks4.sum / threads16 ∧
    ∀ slot ∈ plan.threadTasks,
      tasks4.sum / threads16 ≤ slot.sum ∧
      (∀ hne : slot ≠ [], slot.sum - slot.getLast hne < tasks4.sum / threads16) ∧
      slot.sum ≤ tasks4.sum / threads16 + maxUnit tasks4 ∧
      (slot = [] ↔ tasks4.sum / threads16 = 0) := by
  obtain ⟨hW, hfill⟩ := planPartition_ok hplan
  have hfits2 : tasks4.sum ≤ 2147483647 := hfits
  have htarget := optimalThreadWorkload_eq tasks4 threads16 hnonneg hfits2 hW
  have hsum0 := sum_nonneg_of_forall hnonneg
  have htarget0 : 0 ≤ tasks4.sum / threads16 := Int.ediv_nonneg hsum0 (by omega)
  have hperm := planPartition_perm hplan
  have hpoolperm : ((sortDescending tasks4).reverse).Perm tasks4 :=
    (List.reverse_perm _).trans (List.perm_insertionSort _ tasks4)
  have hpool : ∀ t ∈ (sortDescending tasks4).reverse, 0 ≤ t := fun t ht =>
    hnonneg t (hpoolperm.mem_iff.1 ht)
  have hpoolsum : ((sortDescending tasks4).reverse).sum ≤ 2147483647 := by
    rw [hpoolperm.sum_eq]; exact hfits2
  refine ⟨hW, htarget, ?_⟩
  intro slot hslot
  have hfilled : SlotFilled (tasks4.sum / threads16) slot := by
    rw [← htarget]
    rcases fillSlots_slotFilled _ _ _ _ plan hpool hpoolsum hfill slot hslot with h | h
    · simp at h
    · exact h
  have hmem : ∀ t ∈ slot, t ∈ tasks4 := fun t ht =>
    hperm.mem_iff.1 (List.mem_append_left _ (List.mem_flatten.2 ⟨slot, hslot, ht⟩))
  have hlast : ∀ hne : slot ≠ [], slot.sum - slot.getLast hne < tasks4.sum / threads16 := by
    intro hne
    have hsplit := (List.dropLast_append_getLast hne).symm
    have hmin := hfilled.minimal _ _ hsplit
    have hs : slot.sum = slot.dropLast.sum + slot.getLast hne := by
      conv_lhs => rw [hsplit]
      simp
    omega
  refine ⟨hfilled.reached, hlast, ?_, ?_⟩
  · by_cases hne : slot = []
    · have := maxUnit_nonneg tasks4
      rw [hne]; simp; omega
    · have h1 := hlast hne
      have h2 := le_maxUnit (hmem _ (List.getLast_mem hne))
      omega
  · rw [hfilled.empty_iff]
    constructor <;> intro h <;> omega

/-- Witness for claim C10. Batch `{2, 2, 1}` with 2 threads: the target is 2, slot 0 is `{1, 2}`
(cost 3, cost 1 before its last unit) and slot 1 is `{2}`. -/
theorem slots_are_minimal_fills_witness :
    (∀ t ∈ ([2, 2, 1] : List Int), 0 ≤ t) ∧ ([2, 2, 1] : List Int).sum ≤ INT_MAX ∧
    planPartition [2, 2, 1] 2 = .ok ⟨[[1, 2], [2]], []⟩ ∧
    optimalThreadWorkload [2, 2, 1] 2 = 2 ∧
    ∀ slot ∈ ([[1, 2], [2]] : List (List Int)),
      ([2, 2, 1] : List Int).sum / 2 ≤ slot.sum ∧
      (∀ hne : slot ≠ [], slot.sum - slot.getLast hne < ([2, 2, 1] : List Int).sum / 2) ∧
      slot.sum ≤ ([2, 2, 1] : List Int).sum / 2 + maxUnit [2, 2, 1] ∧
      (slot = [] ↔ ([2, 2, 1] : List Int).sum / 2 = 0) :=
  ⟨by decide, by decide, rfl, rfl,
    (slots_are_minimal_fills [2, 2, 1] 2 ⟨[[1, 2], [2]], []⟩ (by decide) (by decide) rfl).2.2⟩

/-! ## The order in which the planner hands out the units -/

theorem sorted_sortAscending (tasks : List Int) :
    (sortAscending tasks).Sorted (fun a b => a ≤ b) :=
  List.sorted_insertionSort _ tasks

theorem reverse_sortDescending (tasks : List Int) :
    (sortDescending tasks).reverse = sortAscending tasks := by
  have hperm : ((sortDescending tasks).reverse).Perm (sortAscending tasks) :=
    ((List.reverse_perm _).trans (List.perm_insertionSort _ tasks)).trans
      (List.perm_insertionSort _ tasks).symm
  have hsorted : ((sortDescending tasks).reverse).Sorted (fun a b => a ≤ b) :=
    List.pairwise_reverse.2 (sorted_sortDescending tasks)
  exact List.eq_of_perm_of_sorted hperm hsorted (sorted_sortAscending tasks)

/-- Claim C11. Whenever the planner completes, the slots concatenated in worker order, each
slot in insertion order, followed by the pool that is left (back first) are the batch in
ascending order: the slots are an initial segment of that order and the pool is the rest of
it. In the vector `tasks4` the units left are the first ones of the descending order, and
every unit left in the pool is at least as large as every unit assigned to a worker. -/
theorem slots_are_initial_segment_of_ascending_order (tasks4 : List Int) (threads16 : Int)
    (plan : Plan) (hplan : planPartition tasks4 threads16 = .ok plan) :
    plan.threadTasks.flatten ++ plan.tasks4 = sortAscending tasks4 ∧
    (sortAscending tasks4).Sorted (fun a b => a ≤ b) ∧
    (sortAscending tasks4).Perm tasks4 ∧
    plan.threadTasks.flatten <+: sortAscending tasks4 ∧
    plan.tasks4 <:+ sortAscending tasks4 ∧
    plan.tasks4.reverse <+: sortDescending tasks4 ∧
    ∀ assigned ∈ plan.threadTasks.flatten, ∀ left ∈ plan.tasks4, assigned ≤ left := by
  have hsplit := (planPartition_split hplan).2
  have heq : plan.threadTasks.flatten ++ plan.tasks4 = sortAscending tasks4 := by
    rw [hsplit, reverse_sortDescending]
  have hsorted := sorted_sortAscending tasks4
  refine ⟨heq, hsorted, List.perm_insertionSort _ tasks4, ⟨_, heq⟩, ⟨_, heq⟩, ?_, ?_⟩
  · refine ⟨plan.threadTasks.flatten.reverse, ?_⟩
    rw [← List.reverse_append, hsplit, List.reverse_reverse]
  · rw [← heq] at hsorted
    exact (List.pairwise_append.1 hsorted).2.2

/-- Witness for claim C11. Batch `{1, 2, 1, 1, 1, 1, 1}` with 3 threads: the target is 2, the
slots are `{1, 1}` three times, and the unit of cost 2 is left in the pool. -/
theorem slots_are_initial_segment_of_ascending_order_witness :
    planPartition [1, 2, 1, 1, 1, 1, 1] 3 = .ok ⟨[[1, 1], [1, 1], [1, 1]], [2]⟩ ∧
    sortAscending [1, 2, 1, 1, 1, 1, 1] = [1, 1, 1, 1, 1, 1, 2] ∧
    ([[1, 1], [1, 1], [1, 1]] : List (List Int)).flatten ++ [2] =
      sortAscending [1, 2, 1, 1, 1, 1, 1] ∧
    ∀ assigned ∈ ([[1, 1], [1, 1], [1, 1]] : List (List Int)).flatten,
      ∀ left ∈ ([2] : List Int), assigned ≤ left :=
  ⟨rfl, by decide,
    (slots_are_initial_segment_of_ascending_order [1, 2, 1, 1, 1, 1, 1] 3
      ⟨[[1, 1], [1, 1], [1, 1]], [2]⟩ rfl).1,
    (slots_are_initial_segment_of_ascending_order [1, 2, 1, 1, 1, 1, 1] 3
      ⟨[[1, 1], [1, 1], [1, 1]], [2]⟩ rfl).2.2.2.2.2.2⟩

end Sahl
